import Mathlib

/-!
A shallow embedding of the events package: an `Event` record with a deep
`Clone` operation, and an `Args` list of named arguments with `Get`, `Map`,
`A` (construction from a map) and `SortArgs` operations, translated from
`event.go`. Argument values are stored as an untyped interface in the source;
they are modelled here by a type parameter `α`.
-/

namespace Events

/-- An event argument: a name together with an opaque value. -/
structure Arg (α : Type) where
  Name : String
  Value : α
  deriving DecidableEq, Repr

/-- Args represents a list of event arguments. -/
abbrev Args (α : Type) : Type := List (Arg α)

/-- Get returns the value of the first argument with the given name within
args, together with a boolean indicating whether one was found. The source
scans forward and breaks at the first match; when no argument matches it
returns the interface zero value (modelled by `none`) and `false`. -/
def Args.Get {α : Type} (args : Args α) (name : String) : Option α × Bool :=
  match args with
  | [] => (none, false)
  | arg :: rest =>
      if arg.Name = name then (some arg.Value, true) else Args.Get rest name

/-- C1: Args.Get returns the value paired with the first argument in sequence
order whose name equals the given name, together with `true`; if no entry
matches it returns the absent value and `false`. (The first match is expressed
through `List.find?`, which returns the first element satisfying the
predicate.) -/
theorem Get_returns_first_match {α : Type} (args : Args α) (name : String) :
    Args.Get args name =
      ((args.find? (fun a => a.Name == name)).map Arg.Value,
       (args.find? (fun a => a.Name == name)).isSome) := by
  induction args with
  | nil => rfl
  | cons a rest ih =>
      by_cases h : a.Name = name
      · simp [Args.Get, h]
      · simp [Args.Get, h, ih]

/-- A finite mapping from names to values, modelling the representation of a
Go map of type map from string to interface: the sequence of its key/value
bindings in the map's (unspecified) iteration order. A well-formed map binds
each key at most once (`GoMap.WF`). -/
abbrev GoMap (α : Type) : Type := List (String × α)

/-- A well-formed Go map binds each key at most once. -/
abbrev GoMap.WF {α : Type} (m : GoMap α) : Prop := (m.map Prod.fst).Nodup

/-- Reading a key of a mapping: the value bound to the key, if any. -/
def GoMap.lookup {α : Type} (m : GoMap α) (k : String) : Option α :=
  (m.find? (fun p => p.1 == k)).map Prod.snd

/-- Map assignment: storing a value under a key replaces the existing binding
of that key when there is one (last write wins), and adds a binding of a fresh
key otherwise (the position of a fresh binding models the map's unspecified
iteration order). -/
def GoMap.store {α : Type} (m : GoMap α) (k : String) (v : α) : GoMap α :=
  match m with
  | [] => [(k, v)]
  | p :: rest => if p.1 = k then (k, v) :: rest else p :: GoMap.store rest k v

/-- Map converts an argument list to a map representation by storing every
argument in sequence order, so in cases where the list contains multiple
arguments with the same name the value of the last one is the one seen in the
map. -/
def Args.Map {α : Type} (args : Args α) : GoMap α :=
  args.foldl (fun m a => GoMap.store m a.Name a.Value) []

/-- The value of the last argument with the given name in sequence order, if
any: the first match of the reversed sequence. -/
def lastVal {α : Type} (args : Args α) (k : String) : Option α :=
  (args.reverse.find? (fun a => a.Name == k)).map Arg.Value

theorem GoMap.lookup_store_self {α : Type} (m : GoMap α) (k : String) (v : α) :
    GoMap.lookup (GoMap.store m k v) k = some v := by
  induction m with
  | nil => simp [GoMap.store, GoMap.lookup]
  | cons p rest ih =>
      by_cases h : p.1 = k
      · simp [GoMap.store, GoMap.lookup, h]
      · simp only [GoMap.store, if_neg h]
        simpa [GoMap.lookup, h] using ih

theorem GoMap.lookup_store_ne {α : Type} (m : GoMap α) (k k' : String) (v : α)
    (h : k' ≠ k) : GoMap.lookup (GoMap.store m k v) k' = GoMap.lookup m k' := by
  induction m with
  | nil => simp [GoMap.store, GoMap.lookup, Ne.symm h]
  | cons p rest ih =>
      by_cases hp : p.1 = k
      · subst hp
        simp [GoMap.store, GoMap.lookup, Ne.symm h]
      · simp only [GoMap.store, if_neg hp]
        by_cases hk : p.1 = k'
        · simp [GoMap.lookup, hk]
        · simpa [GoMap.lookup, hk] using ih

theorem lastVal_cons {α : Type} (a : Arg α) (rest : Args α) (k : String) :
    lastVal (a :: rest) k =
      Option.or (lastVal rest k) (if a.Name = k then some a.Value else none) := by
  by_cases h : a.Name = k
  · simp [lastVal, List.find?_append, h, Option.map_or']
  · simp [lastVal, List.find?_append, h]

/-- Looking a key up after folding `GoMap.store` over an argument list yields
the last occurrence of the key in the list when there is one, and otherwise
the key's binding in the initial map. -/
theorem lookup_foldl_store {α : Type} (args : Args α) :
    ∀ (m : GoMap α) (k : String),
      GoMap.lookup (args.foldl (fun m a => GoMap.store m a.Name a.Value) m) k
        = Option.or (lastVal args k) (GoMap.lookup m k) := by
  induction args with
  | nil => intro m k; simp [lastVal]
  | cons a rest ih =>
      intro m k
      rw [List.foldl_cons, ih, lastVal_cons]
      by_cases h : a.Name = k
      · subst h
        rw [GoMap.lookup_store_self]
        cases lastVal rest a.Name <;> simp
      · rw [GoMap.lookup_store_ne _ _ _ _ (fun h' => h h'.symm)]
        cases lastVal rest k <;> simp [h]

/-- C2: Args.Map binds each name occurring in the list to the value of the
last occurrence of that name in sequence order, binds nothing else, and
returns the empty mapping on the empty list (the embedding is pure, so the
source list is never mutated). -/
theorem Map_last_occurrence_wins {α : Type} :
    (∀ (args : Args α) (k : String),
        GoMap.lookup (Args.Map args) k = lastVal args k)
    ∧ Args.Map ([] : Args α) = [] := by
  refine ⟨fun args k => ?_, rfl⟩
  rw [Args.Map, lookup_foldl_store]
  cases lastVal args k <;> simp [GoMap.lookup]

/-- A constructs an argument list from a map: the source appends one argument
per binding while ranging over the map, so the result has one entry per key,
in the map's (unspecified) iteration order. -/
def A {α : Type} (m : GoMap α) : Args α := m.map (fun p => ⟨p.1, p.2⟩)

theorem GoMap.store_of_not_mem {α : Type} (m : GoMap α) (k : String) (v : α)
    (h : ∀ p ∈ m, p.1 ≠ k) : GoMap.store m k v = m ++ [(k, v)] := by
  induction m with
  | nil => rfl
  | cons p rest ih =>
      have hp : p.1 ≠ k := h p (List.mem_cons_self p rest)
      simp [GoMap.store, hp, ih (fun q hq => h q (List.mem_cons_of_mem _ hq))]

/-- Folding `GoMap.store` over an argument list whose names are distinct and
disjoint from the keys of the accumulator just appends the bindings. -/
theorem foldl_store_of_nodup {α : Type} (m : GoMap α) :
    ∀ acc : GoMap α, GoMap.WF m → (∀ p ∈ m, ∀ q ∈ acc, q.1 ≠ p.1) →
      (A m).foldl (fun m a => GoMap.store m a.Name a.Value) acc = acc ++ m := by
  induction m with
  | nil => intro acc _ _; simp [A]
  | cons p rest ih =>
      intro acc hwf hdisj
      rw [GoMap.WF, List.map_cons, List.nodup_cons] at hwf
      obtain ⟨hk, hrest⟩ := hwf
      have hstep : GoMap.store acc p.1 p.2 = acc ++ [(p.1, p.2)] :=
        GoMap.store_of_not_mem acc p.1 p.2
          (fun q hq => hdisj p (List.mem_cons_self p rest) q hq)
      have hdisj' : ∀ q ∈ rest, ∀ r ∈ acc ++ [(p.1, p.2)], r.1 ≠ q.1 := by
        intro q hq r hr
        rcases List.mem_append.mp hr with hr | hr
        · exact hdisj q (List.mem_cons_of_mem _ hq) r hr
        · simp only [List.mem_singleton] at hr
          subst hr
          exact fun hEq => hk (by rw [hEq]; exact List.mem_map_of_mem Prod.fst hq)
      calc (A (p :: rest)).foldl (fun m a => GoMap.store m a.Name a.Value) acc
      _ = (A rest).foldl (fun m a => GoMap.store m a.Name a.Value)
            (acc ++ [(p.1, p.2)]) := by simp [A, hstep]
      _ = (acc ++ [(p.1, p.2)]) ++ rest := ih _ hrest hdisj'
      _ = acc ++ p :: rest := by simp

/-- C3: for every well-formed mapping, converting it to an argument list with
A and projecting back with Args.Map returns the mapping itself (here even as
the identity on the representing binding list, which subsumes the
order-independent equality of mappings the claim asks for). -/
theorem A_Map_roundtrip {α : Type} (m : GoMap α) (h : GoMap.WF m) :
    Args.Map (A m) = m := by
  simpa [Args.Map] using foldl_store_of_nodup m [] h (by simp)

/-- C3 witness: the round trip at the concrete mapping of the spec. -/
theorem A_Map_roundtrip_witness :
    GoMap.WF ([("a", 1), ("b", 2), ("c", 3)] : GoMap Nat)
    ∧ Args.Map (A ([("a", 1), ("b", 2), ("c", 3)] : GoMap Nat))
        = [("a", 1), ("b", 2), ("c", 3)] :=
  ⟨by decide, A_Map_roundtrip [("a", 1), ("b", 2), ("c", 3)] (by decide)⟩

/-- C8: for every well-formed mapping, A returns a sequence with exactly one
entry per key (its length is the number of keys and its names are distinct),
each entry pairing a key with its value in the mapping, and the empty mapping
yields the empty sequence. -/
theorem A_one_entry_per_key {α : Type} (m : GoMap α) (h : GoMap.WF m) :
    (A m).length = m.length
    ∧ ((A m).map Arg.Name).Nodup
    ∧ (∀ k v, (⟨k, v⟩ : Arg α) ∈ A m ↔ (k, v) ∈ m)
    ∧ A ([] : GoMap α) = [] := by
  refine ⟨by simp [A], ?_, fun k v => ?_, rfl⟩
  · have : (A m).map Arg.Name = m.map Prod.fst := by
      simp [A, Function.comp]
    rw [this]; exact h
  · simp only [A, List.mem_map]
    constructor
    · rintro ⟨p, hp, hEq⟩
      cases hEq
      exact hp
    · intro hmem
      exact ⟨(k, v), hmem, rfl⟩

/-- C8 witness: A at a concrete two-key mapping. -/
theorem A_one_entry_per_key_witness :
    GoMap.WF ([("x", 7), ("y", 9)] : GoMap Nat)
    ∧ ((A ([("x", 7), ("y", 9)] : GoMap Nat)).length = 2
        ∧ ((A ([("x", 7), ("y", 9)] : GoMap Nat)).map Arg.Name).Nodup
        ∧ (∀ k v, (⟨k, v⟩ : Arg Nat) ∈ A ([("x", 7), ("y", 9)] : GoMap Nat)
            ↔ (k, v) ∈ ([("x", 7), ("y", 9)] : GoMap Nat))
        ∧ A ([] : GoMap Nat) = []) := by
  have h : GoMap.WF ([("x", 7), ("y", 9)] : GoMap Nat) := by decide
  refine ⟨h, ?_⟩
  simpa using A_one_entry_per_key ([("x", 7), ("y", 9)] : GoMap Nat) h

/-- The Less relation of the byArgName ordering from the source: one argument
comes before another when its name is lexicographically smaller. -/
def byArgName.Less {α : Type} (a b : Arg α) : Bool := decide (a.Name < b.Name)

/-- SortArgs sorts a list of arguments by their argument names. The source
calls the standard sort on the byArgName ordering, whose contract is to
permute the list so that no element is Less than an earlier one; this is
modelled by mergeSort with the complemented flipped comparison. The source
documents the sort as unstable, so nothing is claimed about the relative
order of equal names. -/
def SortArgs {α : Type} (args : Args α) : Args α :=
  args.mergeSort (fun a b => !byArgName.Less b a)

theorem byArgName.Less_trans {α : Type} (a b c : Arg α)
    (h1 : (!byArgName.Less b a) = true) (h2 : (!byArgName.Less c b) = true) :
    (!byArgName.Less c a) = true := by
  simp only [byArgName.Less, Bool.not_eq_true', decide_eq_false_iff_not, not_lt] at h1 h2 ⊢
  exact le_trans h1 h2

theorem byArgName.Less_total {α : Type} (a b : Arg α) :
    ((!byArgName.Less b a) || (!byArgName.Less a b)) = true := by
  simp only [byArgName.Less, Bool.or_eq_true, Bool.not_eq_true',
    decide_eq_false_iff_not, not_lt]
  exact le_total a.Name b.Name

/-- C4: after SortArgs the names of the entries are in ascending order, the
result is a permutation of the original list — so the multiset of
(Name, Value) pairs is unchanged and values travel with their names — and
sorting an empty or single-element list leaves it unchanged. -/
theorem SortArgs_sorts {α : Type} :
    (∀ args : Args α, ((SortArgs args).map Arg.Name).Pairwise (· ≤ ·))
    ∧ (∀ args : Args α, (SortArgs args).Perm args)
    ∧ (∀ args : Args α,
        ((SortArgs args).map (fun a => (a.Name, a.Value)) : Multiset (String × α))
          = (args.map (fun a => (a.Name, a.Value)) : Multiset (String × α)))
    ∧ SortArgs ([] : Args α) = []
    ∧ (∀ a : Arg α, SortArgs [a] = [a]) := by
  have hperm : ∀ args : Args α, (SortArgs args).Perm args := by
    intro args
    exact List.mergeSort_perm args _
  refine ⟨?_, hperm, ?_, by simp [SortArgs], by intro a; simp [SortArgs]⟩
  · intro args
    have hs : (SortArgs args).Pairwise (fun a b : Arg α => (!byArgName.Less b a) = true) :=
      List.sorted_mergeSort (byArgName.Less_trans (α := α))
        (byArgName.Less_total (α := α)) args
    rw [List.pairwise_map]
    refine hs.imp ?_
    intro a b h
    simpa only [byArgName.Less, Bool.not_eq_true', decide_eq_false_iff_not,
      not_lt] using h
  · intro args
    exact Multiset.coe_eq_coe.mpr ((hperm args).map _)

/-- Modelled from the spec: cloneValue deep-copies an argument value and is
referenced by Clone but not defined in the file at hand. For the opaque value
type used here the spec prescribes copy by value (scalar and immutable kinds
copy trivially; for opaque types independence is best effort and only equality
of the copy is relied on), so the model returns the value itself. -/
def cloneValue {α : Type} (v : α) : α := v

/-- The Event type: a message, a source, a list of arguments, a timestamp
(an opaque instant copied by value, modelled by an integer) and a debug
flag. -/
structure Event (α : Type) where
  Message : String
  Source : String
  Args : Args α
  Time : Int
  Debug : Bool
  deriving DecidableEq, Repr

/-- Clone makes a deep copy of the event: when non-empty, Message and Source
are copied byte by byte into fresh buffers and the argument list into a fresh
array entry by entry (names copied, values passed through cloneValue); empty
fields stay empty without allocating. Time and Debug are copied by value. -/
def Event.Clone {α : Type} (e : Event α) : Event α :=
  { Message := if e.Message.length ≠ 0 then String.mk e.Message.data else ""
    Source := if e.Source.length ≠ 0 then String.mk e.Source.data else ""
    Args := if e.Args.length ≠ 0 then
        e.Args.map (fun a => ⟨a.Name, cloneValue a.Value⟩)
      else []
    Time := e.Time
    Debug := e.Debug }

theorem string_copy_eq (s : String) :
    (if s.length ≠ 0 then String.mk s.data else "") = s := by
  by_cases h : s.length = 0
  · simp only [h, ne_eq, not_true_eq_false, if_false]
    cases s with
    | mk data =>
        have : data = [] := List.eq_nil_of_length_eq_zero (by simpa [String.length] using h)
        simp [this]
  · simp [h]

/-- C6: Event.Clone copies every field: the clone's Message and Source are
equal as text, Time and Debug are equal by value, and the argument list maps
each entry to an entry with the same Name and the value produced by
cloneValue, position by position in the same order (with the modelled
cloneValue this makes the argument lists equal). -/
theorem Clone_copies_fields {α : Type} (e : Event α) :
    (Event.Clone e).Message = e.Message
    ∧ (Event.Clone e).Source = e.Source
    ∧ (Event.Clone e).Time = e.Time
    ∧ (Event.Clone e).Debug = e.Debug
    ∧ (Event.Clone e).Args = e.Args.map (fun a => ⟨a.Name, cloneValue a.Value⟩)
    ∧ (Event.Clone e).Args = e.Args := by
  have hm := string_copy_eq e.Message
  have hs := string_copy_eq e.Source
  have ha : (Event.Clone e).Args = e.Args.map (fun a => ⟨a.Name, cloneValue a.Value⟩) := by
    by_cases h : e.Args.length = 0
    · have : e.Args = [] := List.eq_nil_of_length_eq_zero h
      simp [Event.Clone, this]
    · simp [Event.Clone, h]
  refine ⟨hm, hs, rfl, rfl, ha, ?_⟩
  rw [ha]
  have : (fun a : Arg α => (⟨a.Name, cloneValue a.Value⟩ : Arg α)) = id := by
    funext a; rfl
  rw [this, List.map_id]

/-- C7: cloning an event whose Message, Source and Args are all empty yields
an event whose Message, Source and Args are again all empty (the zero values
of the respective types, one uniform convention), with Time and Debug
preserved. -/
theorem Clone_empty_event {α : Type} (t : Int) (d : Bool) :
    Event.Clone (Event.mk "" "" [] t d : Event α) = Event.mk "" "" [] t d := by
  rfl

/-- A store of allocated arrays: the cell at address p holds the mutable
backing array living at that address. Used to model the aliasing behaviour of
the slices and string buffers handled by Clone. -/
abbrev Store (β : Type) : Type := List (List β)

/-- The number of allocated cells of a store; addresses below it are valid. -/
def Store.size {β : Type} (s : Store β) : Nat := s.length

/-- The contents of the backing array at an address. -/
def Store.read {β : Type} (s : Store β) (p : Nat) : List β := s.getD p []

/-- Allocate a new backing array with the given contents at a fresh address
(make followed by an element-wise copy in the source), returning the grown
store and the new address. -/
def Store.alloc {β : Type} (s : Store β) (contents : List β) : Store β × Nat :=
  (s ++ [contents], s.length)

/-- Overwrite one element of the backing array at an address (an assignment
through a slice in the source). -/
def Store.write {β : Type} (s : Store β) (p i : Nat) (v : β) : Store β :=
  s.set p ((s.getD p []).set i v)

theorem Store.read_write_ne {β : Type} (s : Store β) (p q i : Nat) (v : β)
    (h : p ≠ q) : Store.read (Store.write s p i v) q = Store.read s q := by
  simp [Store.read, Store.write, List.getElem?_set_ne h]

theorem Store.read_append2_fst {β : Type} (s : Store β) (c d : List β) :
    Store.read (s ++ [c, d]) s.length = c := by
  have h2 : ((s ++ [c]) ++ [d])[s.length]? = some c := by
    rw [List.getElem?_append_left (by simp)]
    exact List.getElem?_concat_length s c
  rw [Store.read, show s ++ [c, d] = (s ++ [c]) ++ [d] by simp,
    List.getD_eq_getElem?_getD, h2]
  rfl

theorem Store.read_append2_snd {β : Type} (s : Store β) (c d : List β) :
    Store.read (s ++ [c, d]) (s.length + 1) = d := by
  have h2 : ((s ++ [c]) ++ [d])[(s ++ [c]).length]? = some d :=
    List.getElem?_concat_length _ d
  rw [Store.read, show s ++ [c, d] = (s ++ [c]) ++ [d] by simp,
    List.getD_eq_getElem?_getD, show s.length + 1 = (s ++ [c]).length by simp, h2]
  rfl

theorem Store.read_append2_lt {β : Type} (s : Store β) (c d : List β) (q : Nat)
    (h : q < s.length) : Store.read (s ++ [c, d]) q = Store.read s q := by
  have h1 : q < (s ++ [c]).length := by
    rw [List.length_append]
    omega
  rw [Store.read, Store.read, show s ++ [c, d] = (s ++ [c]) ++ [d] by simp,
    List.getD_eq_getElem?_getD, List.getD_eq_getElem?_getD,
    List.getElem?_append_left h1, List.getElem?_append_left h]

theorem Store.read_append1_self {β : Type} (s : Store β) (c : List β) :
    Store.read (s ++ [c]) s.length = c := by
  simp [Store.read, List.getElem?_concat_length]

theorem Store.read_append1_lt {β : Type} (s : Store β) (c : List β) (q : Nat)
    (h : q < s.length) : Store.read (s ++ [c]) q = Store.read s q := by
  simp [Store.read, List.getElem?_append_left h]

/-- An event as laid out in memory: Message and Source hold the addresses of
the byte buffers backing the two strings in a character store, Args holds the
address of the backing array of the argument slice in an argument store; Time
and Debug are held by value. -/
structure EventRef (α : Type) where
  Message : Nat
  Source : Nat
  Args : Nat
  Time : Int
  Debug : Bool
  deriving DecidableEq, Repr

/-- The allocation behaviour of Clone on an event whose fields are non-empty,
as in the source: make a fresh argument array copying each entry of the
original (names copied, values through cloneValue) and fresh byte buffers
copying the bytes of Message and of Source, and return the event referring to
the three freshly allocated cells, with Time and Debug copied by value. -/
def Event.CloneRef {α : Type} (sc : Store Char) (sa : Store (Arg α))
    (e : EventRef α) : Store Char × Store (Arg α) × EventRef α :=
  let ra := Store.alloc sa ((Store.read sa e.Args).map
    (fun a => ⟨a.Name, cloneValue a.Value⟩))
  let rm := Store.alloc sc (Store.read sc e.Message)
  let rs := Store.alloc rm.1 (Store.read sc e.Source)
  (rs.1, ra.1, ⟨rm.2, rs.2, ra.2, e.Time, e.Debug⟩)

/-- The independence property of Clone: the clone refers to addresses
distinct from the original's, its buffers hold copies of the original
contents, and overwriting an element through any of the clone's three
references leaves everything the original refers to unchanged, and vice
versa. -/
def CloneIndependence {α : Type} (sc : Store Char) (sa : Store (Arg α))
    (e : EventRef α) (i j k : Nat) (vc wc : Char) (va : Arg α) : Prop :=
  (Event.CloneRef sc sa e).2.2.Message ≠ e.Message
  ∧ (Event.CloneRef sc sa e).2.2.Source ≠ e.Source
  ∧ (Event.CloneRef sc sa e).2.2.Args ≠ e.Args
  ∧ Store.read (Event.CloneRef sc sa e).1 (Event.CloneRef sc sa e).2.2.Message
      = Store.read sc e.Message
  ∧ Store.read (Event.CloneRef sc sa e).1 (Event.CloneRef sc sa e).2.2.Source
      = Store.read sc e.Source
  ∧ Store.read (Event.CloneRef sc sa e).2.1 (Event.CloneRef sc sa e).2.2.Args
      = (Store.read sa e.Args).map (fun a => ⟨a.Name, cloneValue a.Value⟩)
  ∧ Store.read (Event.CloneRef sc sa e).1 e.Message = Store.read sc e.Message
  ∧ Store.read (Event.CloneRef sc sa e).1 e.Source = Store.read sc e.Source
  ∧ Store.read (Event.CloneRef sc sa e).2.1 e.Args = Store.read sa e.Args
  ∧ Store.read
      (Store.write (Event.CloneRef sc sa e).1
        (Event.CloneRef sc sa e).2.2.Message i vc) e.Message
      = Store.read sc e.Message
  ∧ Store.read
      (Store.write (Event.CloneRef sc sa e).1
        (Event.CloneRef sc sa e).2.2.Source j wc) e.Source
      = Store.read sc e.Source
  ∧ Store.read
      (Store.write (Event.CloneRef sc sa e).2.1
        (Event.CloneRef sc sa e).2.2.Args k va) e.Args
      = Store.read sa e.Args
  ∧ Store.read (Store.write (Event.CloneRef sc sa e).1 e.Message i vc)
      (Event.CloneRef sc sa e).2.2.Message
      = Store.read (Event.CloneRef sc sa e).1 (Event.CloneRef sc sa e).2.2.Message
  ∧ Store.read (Store.write (Event.CloneRef sc sa e).1 e.Source j wc)
      (Event.CloneRef sc sa e).2.2.Source
      = Store.read (Event.CloneRef sc sa e).1 (Event.CloneRef sc sa e).2.2.Source
  ∧ Store.read (Store.write (Event.CloneRef sc sa e).2.1 e.Args k va)
      (Event.CloneRef sc sa e).2.2.Args
      = Store.read (Event.CloneRef sc sa e).2.1 (Event.CloneRef sc sa e).2.2.Args

/-- C5: for an event whose Message, Source and Args are non-empty (so Clone
takes the allocating branches), the clone shares no backing storage with the
original: its addresses are fresh, its buffers are copies, and writing an
element through any of the clone's references never changes what the original
refers to, and vice versa. -/
theorem Clone_no_shared_storage {α : Type} (sc : Store Char) (sa : Store (Arg α))
    (e : EventRef α) (i j k : Nat) (vc wc : Char) (va : Arg α)
    (hm : e.Message < Store.size sc) (hs : e.Source < Store.size sc)
    (ha : e.Args < Store.size sa)
    (hmne : Store.read sc e.Message ≠ [])
    (hsne : Store.read sc e.Source ≠ [])
    (hane : Store.read sa e.Args ≠ []) :
    CloneIndependence sc sa e i j k vc wc va := by
  rw [Store.size] at hm hs ha
  have hm1 : e.Message ≠ sc.length := Nat.ne_of_lt hm
  have hs1 : e.Source ≠ sc.length + 1 := Nat.ne_of_lt (Nat.lt_succ_of_lt hs)
  have ha1 : e.Args ≠ sa.length := Nat.ne_of_lt ha
  simp only [CloneIndependence, Event.CloneRef, Store.alloc]
  have happ : sc ++ [Store.read sc e.Message] ++ [Store.read sc e.Source]
      = sc ++ [Store.read sc e.Message, Store.read sc e.Source] := by simp
  have hlen : (sc ++ [Store.read sc e.Message]).length = sc.length + 1 := by simp
  refine ⟨fun h => hm1 h.symm, fun h => hs1 (by simpa [hlen] using h.symm),
    fun h => ha1 h.symm, ?_⟩
  rw [happ, hlen]
  refine ⟨Store.read_append2_fst sc _ _, Store.read_append2_snd sc _ _,
    Store.read_append1_self sa _,
    Store.read_append2_lt sc _ _ _ hm, Store.read_append2_lt sc _ _ _ hs,
    Store.read_append1_lt sa _ _ ha, ?_, ?_, ?_, ?_, ?_, ?_⟩
  · rw [Store.read_write_ne _ _ _ _ _ (fun h => hm1 h.symm)]
    exact Store.read_append2_lt sc _ _ _ hm
  · rw [Store.read_write_ne _ _ _ _ _ (fun h => hs1 h.symm)]
    exact Store.read_append2_lt sc _ _ _ hs
  · rw [Store.read_write_ne _ _ _ _ _ (fun h => ha1 h.symm)]
    exact Store.read_append1_lt sa _ _ ha
  · exact Store.read_write_ne _ _ _ _ _ hm1
  · exact Store.read_write_ne _ _ _ _ _ hs1
  · exact Store.read_write_ne _ _ _ _ _ ha1

/-- A concrete character store for the C5 witness. -/
def scW : Store Char := [[.ofNat 104], [.ofNat 115]]

/-- A concrete argument store for the C5 witness. -/
def saW : Store (Arg Nat) := [[⟨"a", 0⟩]]

/-- A concrete event reference for the C5 witness. -/
def eW : EventRef Nat := ⟨0, 1, 0, 0, false⟩

/-- C5 witness: the independence of Clone at a concrete event with non-empty
Message, Source and Args. -/
theorem Clone_no_shared_storage_witness :
    (eW.Message < Store.size scW ∧ eW.Source < Store.size scW
      ∧ eW.Args < Store.size saW
      ∧ Store.read scW eW.Message ≠ [] ∧ Store.read scW eW.Source ≠ []
      ∧ Store.read saW eW.Args ≠ [])
    ∧ CloneIndependence scW saW eW 0 0 0 (.ofNat 122) (.ofNat 122) ⟨"b", 1⟩ :=
  ⟨by refine ⟨?_, ?_, ?_, ?_, ?_, ?_⟩ <;> decide,
   Clone_no_shared_storage scW saW eW 0 0 0 (.ofNat 122) (.ofNat 122) ⟨"b", 1⟩
     (by decide) (by decide) (by decide) (by decide) (by decide) (by decide)⟩

theorem Get_snd_eq_isSome {α : Type} (args : Args α) (n : String) :
    (Args.Get args n).2 = (Args.Get args n).1.isSome := by
  induction args with
  | nil => rfl
  | cons a rest ih =>
      by_cases h : a.Name = n
      · simp [Args.Get, h]
      · simp [Args.Get, h, ih]

theorem Get_snd_eq_any {α : Type} (args : Args α) (n : String) :
    (Args.Get args n).2 = args.any (fun a => a.Name == n) := by
  induction args with
  | nil => rfl
  | cons a rest ih =>
      by_cases h : a.Name = n
      · simp [Args.Get, h]
      · simp [Args.Get, h, ih]

/-- C9: every operation of the system is a total function over its input
domain, including empty sequences and empty mappings: Get signals absence of a
match only through its boolean, which is true exactly when a value is present,
and Get, Map, A, SortArgs and Clone all return ordinary values on empty
inputs (the embedding consists of total functions, so no operation can raise
an error). -/
theorem ops_total {α : Type} :
    (∀ (args : Args α) (n : String),
        (Args.Get args n).2 = (Args.Get args n).1.isSome)
    ∧ (∀ n : String, Args.Get ([] : Args α) n = (none, false))
    ∧ Args.Map ([] : Args α) = []
    ∧ A ([] : GoMap α) = []
    ∧ SortArgs ([] : Args α) = []
    ∧ (∀ e : Event α,
        Event.Clone e = Event.mk e.Message e.Source e.Args e.Time e.Debug) := by
  refine ⟨fun args n => Get_snd_eq_isSome args n, fun n => rfl, rfl, rfl,
    by simp [SortArgs], fun e => ?_⟩
  have hm := string_copy_eq e.Message
  have hs := string_copy_eq e.Source
  have ha : (if e.Args.length ≠ 0 then
      e.Args.map (fun a => ⟨a.Name, cloneValue a.Value⟩) else []) = e.Args := by
    by_cases h : e.Args.length = 0
    · simp [List.eq_nil_of_length_eq_zero h]
    · have hid : (fun a : Arg α => (⟨a.Name, cloneValue a.Value⟩ : Arg α)) = id := by
        funext a; rfl
      simp [h, hid]
  simp [Event.Clone, hm, hs, ha]

/-- C10: Get finds a name exactly when that name is a key of the mapping
produced by Map: the boolean returned by Get is true iff looking the name up
in Args.Map yields a value. -/
theorem Get_found_iff_Map_key {α : Type} (args : Args α) (n : String) :
    (Args.Get args n).2 = true
      ↔ (GoMap.lookup (Args.Map args) n).isSome = true := by
  have h1 : GoMap.lookup (Args.Map args) n = lastVal args n := by
    rw [Args.Map, lookup_foldl_store]
    cases lastVal args n <;> simp [GoMap.lookup]
  rw [h1, Get_snd_eq_any]
  simp [lastVal, List.any_eq_true]

end Events
